import Mathlib

/-!
Verification development for the ClawdbotHarmony context-engine core
(`src/entry/src/main/cpp/context_engine/`).  The C++ sources are shallowly
embedded: `double` is modelled as `ℚ`, `int64_t` timestamps as `ℤ`,
`std::unordered_map` as insertion-ordered association lists, and the
monotonic clock (`nowMs()` / `steady_clock`) as an explicit parameter.
-/

attribute [local semireducible] Rat.add Rat.mul Rat.sub Rat.inv Rat.ofScientific

namespace ContextEngine

/-- `Condition` from context_engine.h: a `(key, op, value)` triple. -/
structure Condition where
  key : String
  op : String
  value : String
deriving DecidableEq, Repr

/-- `Action` from context_engine.h. -/
structure Action where
  id : String
  type : String
  payload : String
deriving DecidableEq, Repr

/-- `Rule` from context_engine.h. -/
structure Rule where
  id : String
  name : String
  conditions : List Condition
  action : Action
  priority : ℚ
  cooldownMs : ℤ
  enabled : Bool
deriving DecidableEq, Repr

/-- `MatchResult` from context_engine.h. -/
structure MatchResult where
  ruleId : String
  confidence : ℚ
  action : Action
deriving DecidableEq, Repr

/-- `ContextMap` (std::unordered_map<string,string>): association list with
unique keys; `find` is modelled by `List.lookup`. -/
abbrev ContextMap := List (String × String)

/-- Numeric value of a digit list, most significant first
(accumulator form of the usual positional evaluation). -/
def digitsVal (cs : List Char) : Nat :=
  cs.foldl (fun n c => n * 10 + (c.toNat - 48)) 0

/-- Helper for `tryParseDouble`: parse an unsigned decimal literal
`digits [ '.' digits ]` that must consume the whole character list and
contain at least one digit. -/
def parseUnsigned (cs : List Char) : Option ℚ :=
  let intPart := cs.takeWhile Char.isDigit
  let rest := cs.drop intPart.length
  match rest with
  | [] =>
      if intPart.isEmpty then none
      else some (digitsVal intPart : ℚ)
  | '.' :: frac =>
      if frac.all Char.isDigit ∧ (¬ intPart.isEmpty ∨ ¬ frac.isEmpty) then
        some ((digitsVal intPart : ℚ) + (digitsVal frac : ℚ) / (10 : ℚ) ^ frac.length)
      else none
  | _ => none

/-- `tryParseDouble` from soft_match.cpp: `std::stod` followed by the
`pos == s.size()` full-consumption check, restricted to plain decimal
literals with an optional sign (the grammar actually exercised by the
engine; hex/exponent/inf forms are not modelled).  In particular a string
containing a comma, such as `"9,17"`, fails the full-consumption check. -/
def tryParseDouble (s : String) : Option ℚ :=
  match s.toList with
  | '-' :: rest => (parseUnsigned rest).map Neg.neg
  | '+' :: rest => parseUnsigned rest
  | cs => parseUnsigned cs

/-- The whitespace set of `find_first_not_of(" \t")` in soft_match.cpp. -/
def isSpaceTab (c : Char) : Bool := c = ' ' ∨ c = '\t'

/-- One item of `splitCsv`: substring from the first to the last
non-whitespace character; `none` when the item is all whitespace
(`find_first_not_of` returns `npos` and the item is skipped). -/
def trimItem (s : String) : Option String :=
  let cs := (s.toList.dropWhile isSpaceTab).reverse.dropWhile isSpaceTab
  if cs.isEmpty then none else some (String.mk cs.reverse)

/-- `splitCsv` from soft_match.cpp: split on `','`, trim space/tab, drop
all-whitespace items.  (`std::getline` yields no trailing empty item for a
trailing comma; empty items are dropped by the `npos` check either way, so
`String.splitOn` followed by the filter is an exact model.) -/
def splitCsv (s : String) : List String :=
  (s.splitOn ",").filterMap trimItem

/-- `softMatch` from soft_match.cpp, a direct transcription preserving the
branch order of the source: missing key returns 0.5 before any op dispatch,
and the numeric-parse fallback (string equality) is tested before the
`gt/gte/lt/lte/range` branches. -/
def softMatch (cond : Condition) (ctx : ContextMap) : ℚ :=
  match List.lookup cond.key ctx with
  | none => 1/2
  | some actual =>
    if cond.op = "eq" then
      if actual = cond.value then 1 else 0
    else if cond.op = "neq" then
      if actual ≠ cond.value then 1 else 0
    else if cond.op = "in" then
      if (splitCsv cond.value).contains actual then 1 else 0
    else
      match tryParseDouble actual, tryParseDouble cond.value with
      | some actualNum, some valueNum =>
        let margin := max (|valueNum| * (1/10)) 1
        if cond.op = "gt" then
          if actualNum > valueNum then 1
          else max 0 (1 - (valueNum - actualNum) / margin)
        else if cond.op = "gte" then
          if actualNum ≥ valueNum then 1
          else max 0 (1 - (valueNum - actualNum) / margin)
        else if cond.op = "lt" then
          if actualNum < valueNum then 1
          else max 0 (1 - (actualNum - valueNum) / margin)
        else if cond.op = "lte" then
          if actualNum ≤ valueNum then 1
          else max 0 (1 - (actualNum - valueNum) / margin)
        else if cond.op = "range" then
          match splitCsv cond.value with
          | [p0, p1] =>
            match tryParseDouble p0, tryParseDouble p1 with
            | some lo, some hi =>
              if actualNum ≥ lo ∧ actualNum ≤ hi then 1
              else
                let dist := if actualNum < lo then lo - actualNum else actualNum - hi
                let rangeMargin := max ((hi - lo) * (1/10)) 1
                max 0 (1 - dist / rangeMargin)
            | _, _ => 0
          | _ => 0
        else 0
      | _, _ => if actual = cond.value then 1 else 0

/-- Helper: the clamped linear-decay score lies in [0,1] when the
distance is nonnegative and the margin is at least 1. -/
lemma decay_mem (d m : ℚ) (hd : 0 ≤ d) (hm : 1 ≤ m) :
    0 ≤ max 0 (1 - d / m) ∧ max 0 (1 - d / m) ≤ 1 := by
  refine ⟨le_max_left _ _, max_le (by norm_num) ?_⟩
  have hm0 : 0 < m := lt_of_lt_of_le one_pos hm
  have : 0 ≤ d / m := div_nonneg hd hm0.le
  linarith

set_option maxHeartbeats 1000000 in
/-- Every branch of `softMatch` yields a score in [0,1]. -/
lemma softMatch_bounds (cond : Condition) (ctx : ContextMap) :
    0 ≤ softMatch cond ctx ∧ softMatch cond ctx ≤ 1 := by
  unfold softMatch
  split
  · norm_num
  · rename_i actual _
    split_ifs <;> try norm_num
    all_goals (split <;> try norm_num)
    all_goals try (split_ifs <;>
      first
        | exact decay_mem _ _ (by linarith) (le_max_right _ _)
        | (norm_num; done))
    all_goals try (split <;> try norm_num)
    all_goals try (split <;> try norm_num)
    all_goals (split_ifs with hin hbelow <;>
      first
        | (norm_num; done)
        | exact decay_mem _ _ (by linarith) (le_max_right _ _)
        | (refine decay_mem _ _ ?_ (le_max_right _ _);
           rcases not_and_or.mp hin with h | h <;> linarith))

/-- C1: the spec says a `range` condition `"9,17"` scores 1.0 when the
context value lies inside [9,17], with linear decay outside.  On the code,
`tryParseDouble("9,17")` fails the full-consumption check (the comma stops
`std::stod`), so soft_match.cpp line 70 takes the string-equality fallback
before the `range` branch at line 99 is ever reached: every scenario-S3
context scores 0, contradicting the file's own header comment
("range: in range = 1.0, linear decay outside"). -/
theorem c1_range_dead_code :
    softMatch ⟨"hour", "range", "9,17"⟩ [("hour", "12")] = 0 ∧
    softMatch ⟨"hour", "range", "9,17"⟩ [("hour", "17.5")] = 0 ∧
    softMatch ⟨"hour", "range", "9,17"⟩ [("hour", "20")] = 0 := by
  decide

/-- C3 counterexample: the claim says a missing key under `eq` is treated
as not equal (score 0.0) and under `neq` as score 1.0; the code returns
0.5 for a missing key before any op dispatch (soft_match.cpp lines 44-48). -/
theorem c3_counterexample :
    softMatch ⟨"motionState", "eq", "walking"⟩ [] = 1/2 ∧
    softMatch ⟨"motionState", "neq", "walking"⟩ [] = 1/2 ∧
    ((1 : ℚ)/2 ≠ 0) ∧ ((1 : ℚ)/2 ≠ 1) := by
  decide

/-- C3 (amended): for every condition whose key is absent from the context
map, `softMatch` returns exactly 0.5 — with no exception for `eq`/`neq`. -/
theorem c3_missing_key_half (cond : Condition) (ctx : ContextMap)
    (h : List.lookup cond.key ctx = none) : softMatch cond ctx = 1/2 := by
  unfold softMatch
  rw [h]

/-- Witness for `c3_missing_key_half` at a concrete condition and the
empty context. -/
theorem c3_missing_key_half_witness :
    List.lookup "motionState" ([] : ContextMap) = none ∧
    softMatch ⟨"motionState", "eq", "walking"⟩ [] = 1/2 :=
  ⟨rfl, c3_missing_key_half ⟨"motionState", "eq", "walking"⟩ [] rfl⟩

/-- C7: `softMatch` is a total, side-effect-free function (it is a total
Lean function by construction) and its value always lies in [0,1]. -/
theorem c7_score_totality (cond : Condition) (ctx : ContextMap) :
    0 ≤ softMatch cond ctx ∧ softMatch cond ctx ≤ 1 :=
  softMatch_bounds cond ctx

/-- `ContextEvent` from context_engine.h. -/
structure ContextEvent where
  context : ContextMap
  timestampMs : ℤ
  eventType : String
deriving DecidableEq, Repr

/-- `EventBuffer::MAX_AGE_MS` (24 hours). -/
def MAX_AGE_MS : ℤ := 86400000

/-- `EventBuffer` state: the deque of events (front = oldest) and the
capacity `maxSize_`. -/
structure EventBuffer where
  events : List ContextEvent
  maxSize : Nat
deriving DecidableEq, Repr

/-- `EventBuffer::expireOld`: drop events from the front while they are
older than `now − MAX_AGE_MS`; `now` (a `steady_clock` reading in the
source) is an explicit parameter. -/
def EventBuffer.expireOld (buf : EventBuffer) (now : ℤ) : EventBuffer :=
  { buf with events := buf.events.dropWhile (fun e => e.timestampMs < now - MAX_AGE_MS) }

/-- `EventBuffer::push`: expire old events, pop the oldest when the buffer
is full, then append.  (`pop_front` on an empty deque is UB in C++ and is
modelled as a no-op; it is unreachable for `maxSize ≥ 1`.) -/
def EventBuffer.push (buf : EventBuffer) (now : ℤ) (event : ContextEvent) : EventBuffer :=
  let buf := buf.expireOld now
  let evs := if buf.maxSize ≤ buf.events.length then buf.events.tail else buf.events
  { buf with events := evs ++ [event] }

/-- Backward scan of `EventBuffer::hasRecent` over the reversed deque
(newest first): stop at the first event below the cutoff, succeed on the
first event of the wanted type. -/
def hasRecentGo (cutoff : ℤ) (eventType : String) : List ContextEvent → Bool
  | [] => false
  | e :: rest =>
    if e.timestampMs < cutoff then false
    else if e.eventType = eventType then true
    else hasRecentGo cutoff eventType rest

/-- `EventBuffer::hasRecent`. -/
def EventBuffer.hasRecent (buf : EventBuffer) (now : ℤ) (eventType : String)
    (withinMs : ℤ) : Bool :=
  hasRecentGo (now - withinMs) eventType buf.events.reverse

/-- First loop of `EventBuffer::hasSequence`: timestamp of the newest
in-window event of type B, or the `-1` sentinel. -/
def findLatestB (cutoff : ℤ) (eventB : String) : List ContextEvent → ℤ
  | [] => -1
  | e :: rest =>
    if e.timestampMs < cutoff then -1
    else if e.eventType = eventB then e.timestampMs
    else findLatestB cutoff eventB rest

/-- Second loop of `EventBuffer::hasSequence`: an in-window event of type A
strictly before `latestB`. -/
def hasEarlierA (cutoff latestB : ℤ) (eventA : String) : List ContextEvent → Bool
  | [] => false
  | e :: rest =>
    if e.timestampMs < cutoff then false
    else if e.eventType = eventA ∧ e.timestampMs < latestB then true
    else hasEarlierA cutoff latestB eventA rest

/-- `EventBuffer::hasSequence`. -/
def EventBuffer.hasSequence (buf : EventBuffer) (now : ℤ) (eventA eventB : String)
    (withinMs : ℤ) : Bool :=
  let cutoff := now - withinMs
  let latestB := findLatestB cutoff eventB buf.events.reverse
  if latestB < 0 then false
  else hasEarlierA cutoff latestB eventA buf.events.reverse

/-- `extractAfterPrefix` from rule_engine.cpp: strict-prefix check, then
the remainder of the key; empty string otherwise. -/
def extractAfter (key tag : String) : String :=
  if tag.length < key.length ∧ key.take tag.length = tag then key.drop tag.length else ""

/-- `extractSequencePair` from rule_engine.cpp: split the part after
`"sequence:"` at the first comma (via the character list; `find(',')`
returning `npos` maps to `findIdx` returning the length). -/
def extractSequencePair (key : String) : String × String :=
  let cs := (extractAfter key "sequence:").toList
  let i := cs.findIdx (· = ',')
  if i = cs.length then ("", "")
  else (String.mk (cs.take i), String.mk (cs.drop (i + 1)))

/-- `std::stoll` as used on condition values: skip leading whitespace,
optional sign, longest digit run; fails (throws, caught as 0-score) iff
there is no digit. -/
def parseInt (s : String) : Option ℤ :=
  let cs := s.toList.dropWhile (fun c => c.isWhitespace)
  let signRest : ℤ × List Char :=
    match cs with
    | '-' :: rest => (-1, rest)
    | '+' :: rest => (1, rest)
    | _ => (1, cs)
  let ds := signRest.2.takeWhile Char.isDigit
  if ds.isEmpty then none else some (signRest.1 * digitsVal ds)

/-- `RuleEngine::matchCondition`: `recent` and `within` are answered by
the event buffer, everything else by `softMatch`. -/
def matchCondition (buf : EventBuffer) (now : ℤ) (cond : Condition)
    (ctx : ContextMap) : ℚ :=
  if cond.op = "recent" then
    let eventType := extractAfter cond.key "event:"
    if eventType = "" then 0
    else
      match parseInt cond.value with
      | none => 0
      | some withinMs => if buf.hasRecent now eventType withinMs then 1 else 0
  else if cond.op = "within" then
    let p := extractSequencePair cond.key
    if p.1 = "" ∨ p.2 = "" then 0
    else
      match parseInt cond.value with
      | none => 0
      | some withinMs => if buf.hasSequence now p.1 p.2 withinMs then 1 else 0
  else softMatch cond ctx

/-- `matchCondition` scores lie in [0,1] as well. -/
lemma matchCondition_bounds (buf : EventBuffer) (now : ℤ) (cond : Condition)
    (ctx : ContextMap) :
    0 ≤ matchCondition buf now cond ctx ∧ matchCondition buf now cond ctx ≤ 1 := by
  unfold matchCondition
  by_cases h1 : cond.op = "recent"
  · simp only [if_pos h1]
    split_ifs with he
    · norm_num
    · rcases hw : parseInt cond.value with _ | w <;> simp only [hw]
      · norm_num
      · split_ifs <;> norm_num
  · simp only [if_neg h1]
    by_cases h2 : cond.op = "within"
    · simp only [if_pos h2]
      split_ifs with he
      · norm_num
      · rcases hw : parseInt cond.value with _ | w <;> simp only [hw]
        · norm_num
        · split_ifs <;> norm_num
    · simp only [if_neg h2]
      exact softMatch_bounds cond ctx

/-- The condition loop of `RuleEngine::evaluateNode` lines 233-238: running
product with the `< 0.01` early exit. -/
def confLoop (score : Condition → ℚ) : List Condition → ℚ → ℚ
  | [], acc => acc
  | c :: cs, acc =>
    let acc' := acc * score c
    if acc' < 1/100 then acc' else confLoop score cs acc'

/-- The same loop without the early exit (the spec's reference variant). -/
def confLoopFull (score : Condition → ℚ) : List Condition → ℚ → ℚ
  | [], acc => acc
  | c :: cs, acc => confLoopFull score cs (acc * score c)

/-- With scores in [0,1] the running product never increases. -/
lemma confLoopFull_le (score : Condition → ℚ)
    (hf : ∀ c, 0 ≤ score c ∧ score c ≤ 1) :
    ∀ (conds : List Condition) (acc : ℚ), 0 ≤ acc →
      confLoopFull score conds acc ≤ acc ∧ 0 ≤ confLoopFull score conds acc
  | [], acc, h => ⟨le_refl _, h⟩
  | c :: cs, acc, h => by
    have h0 : 0 ≤ acc * score c := mul_nonneg h (hf c).1
    have h1 : acc * score c ≤ acc := mul_le_of_le_one_right h (hf c).2
    have ih := confLoopFull_le score hf cs (acc * score c) h0
    exact ⟨le_trans ih.1 h1, ih.2⟩

/-- Early exit changes nothing whenever the full product stays ≥ 1/10. -/
lemma confLoop_eq_full (score : Condition → ℚ)
    (hf : ∀ c, 0 ≤ score c ∧ score c ≤ 1) :
    ∀ (conds : List Condition) (acc : ℚ), 0 ≤ acc →
      1/10 ≤ confLoopFull score conds acc →
      confLoop score conds acc = confLoopFull score conds acc
  | [], acc, _, _ => rfl
  | c :: cs, acc, h, hfull => by
    have h0 : 0 ≤ acc * score c := mul_nonneg h (hf c).1
    show (if acc * score c < 1/100 then acc * score c
          else confLoop score cs (acc * score c)) = confLoopFull score cs (acc * score c)
    split_ifs with hlt
    · exfalso
      have := (confLoopFull_le score hf cs (acc * score c) h0).1
      have : confLoopFull score cs (acc * score c) < 1/100 := lt_of_le_of_lt this hlt
      have hc : confLoopFull score (c :: cs) acc = confLoopFull score cs (acc * score c) := rfl
      rw [hc] at hfull
      linarith
    · exact confLoop_eq_full score hf cs (acc * score c) h0 hfull

/-- C5: for every rule's condition list, the per-rule confidence computed
with the 0.01 early exit equals the full product of condition scores
whenever that full product is ≥ 0.1; the emitted results above the 0.1
threshold therefore coincide. -/
theorem c5_short_circuit_equiv (buf : EventBuffer) (now : ℤ) (ctx : ContextMap)
    (conds : List Condition)
    (h : 1/10 ≤ confLoopFull (fun c => matchCondition buf now c ctx) conds 1) :
    confLoop (fun c => matchCondition buf now c ctx) conds 1 =
      confLoopFull (fun c => matchCondition buf now c ctx) conds 1 :=
  confLoop_eq_full _ (fun c => matchCondition_bounds buf now c ctx) conds 1 (by norm_num) h

/-- Witness for `c5_short_circuit_equiv`: a one-condition rule whose score
is 1. -/
theorem c5_short_circuit_equiv_witness :
    (1/10 : ℚ) ≤ confLoopFull
        (fun c => matchCondition ⟨[], 100⟩ 0 c [("motionState", "walking")])
        [⟨"motionState", "eq", "walking"⟩] 1 ∧
    confLoop (fun c => matchCondition ⟨[], 100⟩ 0 c [("motionState", "walking")])
        [⟨"motionState", "eq", "walking"⟩] 1 =
      confLoopFull (fun c => matchCondition ⟨[], 100⟩ 0 c [("motionState", "walking")])
        [⟨"motionState", "eq", "walking"⟩] 1 :=
  ⟨by decide, c5_short_circuit_equiv ⟨[], 100⟩ 0 [("motionState", "walking")]
      [⟨"motionState", "eq", "walking"⟩] (by decide)⟩
/-- Buffer invariant relative to the clock reading `now` of the latest
push: bounded size, time-ordered contents, all events within age. -/
def BufInv (now : ℤ) (buf : EventBuffer) : Prop :=
  buf.events.length ≤ buf.maxSize ∧
  List.Pairwise (fun a b => a.timestampMs ≤ b.timestampMs) buf.events ∧
  ∀ e ∈ buf.events, now - MAX_AGE_MS ≤ e.timestampMs ∧ e.timestampMs ≤ now

/-- In a time-ordered list, everything surviving the expiry `dropWhile`
is at or after the cutoff. -/
lemma mem_dropWhile_cutoff (c : ℤ) :
    ∀ (l : List ContextEvent),
      List.Pairwise (fun a b => a.timestampMs ≤ b.timestampMs) l →
      ∀ x ∈ l.dropWhile (fun e => e.timestampMs < c), c ≤ x.timestampMs
  | [], _, x, hx => by simp [List.dropWhile] at hx
  | a :: l, hp, x, hx => by
    by_cases ha : a.timestampMs < c
    · rw [List.dropWhile_cons, if_pos (by simpa using ha)] at hx
      exact mem_dropWhile_cutoff c l hp.of_cons x hx
    · rw [List.dropWhile_cons, if_neg (by simpa using ha)] at hx
      rcases List.mem_cons.mp hx with rfl | hxl
      · exact not_lt.mp ha
      · exact le_trans (not_lt.mp ha) ((List.pairwise_cons.mp hp).1 x hxl)

/-- One push at clock reading `now` with an event carrying that timestamp
preserves the invariant. -/
lemma push_inv (buf : EventBuffer) (n now : ℤ) (e : ContextEvent)
    (hms : 1 ≤ buf.maxSize) (hts : e.timestampMs = now) (hmono : n ≤ now)
    (hI : BufInv n buf) : BufInv now (buf.push now e) := by
  obtain ⟨hlen, hsort, hmem⟩ := hI
  have hage : (0 : ℤ) ≤ MAX_AGE_MS := by norm_num [MAX_AGE_MS]
  set evs1 := buf.events.dropWhile (fun ev => ev.timestampMs < now - MAX_AGE_MS) with hevs1
  have hsub1 : List.Sublist evs1 buf.events := List.dropWhile_sublist _
  have hsort1 : List.Pairwise (fun a b => a.timestampMs ≤ b.timestampMs) evs1 :=
    hsort.sublist hsub1
  have hcut : ∀ x ∈ evs1, now - MAX_AGE_MS ≤ x.timestampMs :=
    mem_dropWhile_cutoff _ buf.events hsort
  set evs2 := if buf.maxSize ≤ evs1.length then evs1.tail else evs1 with hevs2
  have hsub2 : List.Sublist evs2 evs1 := by
    rw [hevs2]; split
    · exact List.tail_sublist evs1
    · exact List.Sublist.refl evs1
  have hpush : (buf.push now e).events = evs2 ++ [e] := rfl
  have hpushms : (buf.push now e).maxSize = buf.maxSize := rfl
  have hmem2 : ∀ x ∈ evs2, x ∈ buf.events := fun x hx =>
    hsub1.subset (hsub2.subset hx)
  have hlen1 : evs1.length ≤ buf.maxSize :=
    le_trans (List.Sublist.length_le hsub1) hlen
  refine ⟨?_, ?_, ?_⟩
  · rw [hpush, hpushms]
    rw [hevs2]
    split
    · rename_i hge
      have ht := List.length_tail evs1
      have h1 : (evs1.tail ++ [e]).length = evs1.tail.length + 1 := by simp
      omega
    · rename_i hlt
      have h1 : (evs1 ++ [e]).length = evs1.length + 1 := by simp
      omega
  · rw [hpush]
    rw [List.pairwise_append]
    refine ⟨hsort1.sublist hsub2, List.pairwise_singleton _ _, ?_⟩
    intro x hx b hb
    rcases List.mem_singleton.mp hb with rfl
    have := (hmem x (hmem2 x hx)).2
    rw [hts]; exact le_trans this hmono
  · rw [hpush]
    intro x hx
    rcases List.mem_append.mp hx with hx2 | hxe
    · refine ⟨hcut x (hsub2.subset hx2), ?_⟩
      exact le_trans (hmem x (hmem2 x hx2)).2 hmono
    · rcases List.mem_singleton.mp hxe with rfl
      rw [hts]; omega

/-- A whole sequence of pushes, each at the clock reading equal to the
pushed event's timestamp (single monotonic clock). -/
def pushAll (buf : EventBuffer) (events : List ContextEvent) : EventBuffer :=
  events.foldl (fun b ev => b.push ev.timestampMs ev) buf

/-- Timestamp of the last pushed event, or the starting reading. -/
def lastTs (n : ℤ) : List ContextEvent → ℤ
  | [] => n
  | e :: rest => lastTs e.timestampMs rest

lemma lastTs_concat : ∀ (pre : List ContextEvent) (n : ℤ) (e : ContextEvent),
    lastTs n (pre ++ [e]) = e.timestampMs
  | [], _, _ => rfl
  | f :: r, _, e => lastTs_concat r f.timestampMs e

lemma pushAll_maxSize : ∀ (events : List ContextEvent) (buf : EventBuffer),
    (pushAll buf events).maxSize = buf.maxSize
  | [], _ => rfl
  | e :: rest, buf => by
    have := pushAll_maxSize rest (buf.push e.timestampMs e)
    simpa [pushAll] using this

lemma lastTs_cons (n : ℤ) (e : ContextEvent) (rest : List ContextEvent) :
    lastTs n (e :: rest) = lastTs e.timestampMs rest := rfl

/-- The invariant holds after every prefix of a monotone push sequence. -/
lemma pushAll_inv : ∀ (events : List ContextEvent) (buf : EventBuffer) (n : ℤ),
    1 ≤ buf.maxSize → BufInv n buf →
    (∀ x ∈ events.head?, n ≤ x.timestampMs) →
    List.Chain' (fun a b => a.timestampMs ≤ b.timestampMs) events →
    BufInv (lastTs n events) (pushAll buf events)
  | [], _, _, _, hI, _, _ => hI
  | e :: rest, buf, n, hms, hI, hhead, hchain => by
    have hne : n ≤ e.timestampMs := hhead e rfl
    have hI' : BufInv e.timestampMs (buf.push e.timestampMs e) :=
      push_inv buf n e.timestampMs e hms rfl hne hI
    have hms' : 1 ≤ (buf.push e.timestampMs e).maxSize := hms
    have hcc := List.chain'_cons'.mp hchain
    have ih := pushAll_inv rest (buf.push e.timestampMs e) e.timestampMs
      hms' hI' hcc.1 hcc.2
    rw [lastTs_cons]
    exact ih

/-- C6: after each push of a monotone (non-decreasing timestamp) sequence
into an initially empty buffer with capacity ≥ 1, the buffer holds at most
`maxSize` events and no event more than `MAX_AGE_MS` older than the time
of that push (the timestamp of the event just pushed, which is the clock
reading of the push under the single-clock assumption). -/
theorem c6_event_buffer_bounded (maxSize : Nat) (pre : List ContextEvent)
    (e : ContextEvent) (hms : 1 ≤ maxSize)
    (hmono : List.Chain' (fun a b => a.timestampMs ≤ b.timestampMs) (pre ++ [e])) :
    (pushAll ⟨[], maxSize⟩ (pre ++ [e])).events.length ≤ maxSize ∧
    ∀ ev ∈ (pushAll ⟨[], maxSize⟩ (pre ++ [e])).events,
      e.timestampMs - ev.timestampMs ≤ MAX_AGE_MS := by
  obtain ⟨h0, hh⟩ : ∃ h0, (pre ++ [e]).head? = some h0 := by
    cases pre with
    | nil => exact ⟨e, rfl⟩
    | cons f r => exact ⟨f, rfl⟩
  have hstart : BufInv h0.timestampMs ⟨[], maxSize⟩ := ⟨by simp, by simp, by simp⟩
  have hhead : ∀ x ∈ (pre ++ [e]).head?, h0.timestampMs ≤ x.timestampMs := by
    intro x hx
    rw [hh] at hx
    rcases Option.mem_some_iff.mp hx with rfl
    exact le_refl _
  have key := pushAll_inv (pre ++ [e]) ⟨[], maxSize⟩ h0.timestampMs hms hstart hhead hmono
  rw [lastTs_concat] at key
  obtain ⟨hlen, _, hmem⟩ := key
  refine ⟨?_, ?_⟩
  · have hms2 := pushAll_maxSize (pre ++ [e]) ⟨[], maxSize⟩
    simp only [] at hms2
    omega
  · intro ev hev
    have := (hmem ev hev).1
    omega

/-- Witness for `c6_event_buffer_bounded`: two pushes at timestamps 0 and 5
into a buffer of capacity 2. -/
theorem c6_event_buffer_bounded_witness :
    (1 ≤ 2 ∧
      List.Chain' (fun a b => a.timestampMs ≤ b.timestampMs)
        ([⟨[], 0, "a"⟩] ++ [(⟨[], 5, "b"⟩ : ContextEvent)])) ∧
    ((pushAll ⟨[], 2⟩ ([⟨[], 0, "a"⟩] ++ [(⟨[], 5, "b"⟩ : ContextEvent)])).events.length ≤ 2 ∧
      ∀ ev ∈ (pushAll ⟨[], 2⟩ ([⟨[], 0, "a"⟩] ++ [(⟨[], 5, "b"⟩ : ContextEvent)])).events,
        (5 : ℤ) - ev.timestampMs ≤ MAX_AGE_MS) :=
  ⟨⟨by norm_num, by simp⟩,
    c6_event_buffer_bounded 2 [⟨[], 0, "a"⟩] ⟨[], 5, "b"⟩ (by norm_num) (by simp)⟩
/-- `ArmStats` from context_engine.h. -/
structure ArmStats where
  pulls : ℤ
  totalReward : ℚ
deriving DecidableEq, Repr

/-- `ArmStats::avgReward`. -/
def ArmStats.avgReward (a : ArmStats) : ℚ :=
  if a.pulls > 0 then a.totalReward / (a.pulls : ℚ) else 0

/-- The score the exploit loop of `MAB::select` assigns to a candidate
(mab.cpp lines 33-38): average reward, with unseen or never-pulled arms
given the optimistic value 1.0. -/
def mabScore (arms : List (String × ArmStats)) (id : String) : ℚ :=
  match List.lookup id arms with
  | none => 1
  | some st => if st.pulls = 0 then 1 else st.avgReward

/-- The exploit loop of `MAB::select` (mab.cpp lines 30-44): running best
index and best average, strict improvement only. -/
def selectLoop (arms : List (String × ArmStats)) :
    List String → Nat → Int → ℚ → Int
  | [], _, bestIdx, _ => bestIdx
  | id :: rest, i, bestIdx, bestAvg =>
    let avg := mabScore arms id
    if avg > bestAvg then selectLoop arms rest (i + 1) (i : Int) avg
    else selectLoop arms rest (i + 1) bestIdx bestAvg

/-- `MAB::select` with the random draws injected as oracle parameters:
`r` models `dist(gen) ∈ [0,1)` and `ri` the uniform index draw (reduced
mod the size to stay total; it is only consulted on the explore path). -/
def mabSelect (epsilon r : ℚ) (ri : Nat) (arms : List (String × ArmStats))
    (actionIds : List String) : Int :=
  if actionIds = [] then -1
  else if r < epsilon then ((ri % actionIds.length : Nat) : Int)
  else selectLoop arms actionIds 0 0 (-1000000000)

/-- `MAB::update`: `arms_[actionId]` value-initialises a fresh entry, then
`pulls++` and `totalReward += reward`. -/
def mabUpdate (arms : List (String × ArmStats)) (actionId : String)
    (reward : ℚ) : List (String × ArmStats) :=
  match List.lookup actionId arms with
  | some _ => arms.map (fun p =>
      if p.1 = actionId then (p.1, ⟨p.2.pulls + 1, p.2.totalReward + reward⟩) else p)
  | none => arms ++ [(actionId, ⟨1, reward⟩)]

/-- Loop invariant of the exploit loop: the result is either the incoming
best (and nothing in the remainder beats the incoming best average), or
the offset of a maximal element of the remainder that strictly beats it. -/
lemma selectLoop_spec (arms : List (String × ArmStats)) :
    ∀ (rest : List String) (i : Nat) (b : Int) (bAvg : ℚ),
      (selectLoop arms rest i b bAvg = b ∧ ∀ id ∈ rest, mabScore arms id ≤ bAvg) ∨
      (∃ k : Nat, k < rest.length ∧
        selectLoop arms rest i b bAvg = ((i + k : Nat) : Int) ∧
        bAvg < mabScore arms (rest.getD k "") ∧
        ∀ id ∈ rest, mabScore arms id ≤ mabScore arms (rest.getD k ""))
  | [], i, b, bAvg => Or.inl ⟨rfl, by simp⟩
  | id :: rest, i, b, bAvg => by
    show _ ∨ _
    by_cases h : mabScore arms id > bAvg
    · have hstep : selectLoop arms (id :: rest) i b bAvg =
          selectLoop arms rest (i + 1) (i : Int) (mabScore arms id) := by
        simp [selectLoop, h]
      rcases selectLoop_spec arms rest (i + 1) (i : Int) (mabScore arms id) with
        ⟨heq, hall⟩ | ⟨k, hk, heq, hlt, hall⟩
      · refine Or.inr ⟨0, by simp, ?_, ?_, ?_⟩
        · rw [hstep, heq]; simp
        · simpa using h
        · intro x hx
          rcases List.mem_cons.mp hx with rfl | hx'
          · simp
          · simpa using hall x hx'
      · refine Or.inr ⟨k + 1, by simpa using hk, ?_, ?_, ?_⟩
        · rw [hstep, heq]; congr 1; omega
        · simp only [List.getD_cons_succ]
          exact lt_trans h hlt
        · intro x hx
          rcases List.mem_cons.mp hx with rfl | hx'
          · simpa using le_of_lt hlt
          · simpa using hall x hx'
    · have hstep : selectLoop arms (id :: rest) i b bAvg =
          selectLoop arms rest (i + 1) b bAvg := by
        simp [selectLoop, h]
      rcases selectLoop_spec arms rest (i + 1) b bAvg with
        ⟨heq, hall⟩ | ⟨k, hk, heq, hlt, hall⟩
      · refine Or.inl ⟨by rw [hstep, heq], ?_⟩
        intro x hx
        rcases List.mem_cons.mp hx with rfl | hx'
        · exact not_lt.mp h
        · exact hall x hx'
      · refine Or.inr ⟨k + 1, by simpa using hk, ?_, ?_, ?_⟩
        · rw [hstep, heq]; congr 1; omega
        · simp only [List.getD_cons_succ]
          exact hlt
        · intro x hx
          rcases List.mem_cons.mp hx with rfl | hx'
          · simp only [List.getD_cons_succ]
            exact le_trans (not_lt.mp h) (le_of_lt hlt)
          · simpa using hall x hx'

/-- The scenario arm table of S6: rewards a→0.2 three times, b→0.9 once. -/
def c8Arms : List (String × ArmStats) :=
  mabUpdate (mabUpdate (mabUpdate (mabUpdate [] "a" (1/5)) "a" (1/5)) "a" (1/5)) "b" (9/10)

/-- Arm table in which every candidate scores below the loop's `-1e9`
initial best average. -/
def c8BadArms : List (String × ArmStats) :=
  [("a", ⟨1, -2000000000⟩), ("b", ⟨1, -1500000000⟩)]

/-- C8 counterexample: with every candidate's average below the `-1e9`
initialisation of `bestAvg` (mab.cpp line 31), `select` returns index 0
even though candidate 1 has the strictly higher score, so `select` does
not always return a maximising index. -/
theorem c8_counterexample :
    mabSelect 0 (1/2) 0 c8BadArms ["a", "b"] = 0 ∧
    mabScore c8BadArms "a" < mabScore c8BadArms "b" := by
  constructor
  · show selectLoop c8BadArms ["a", "b"] 0 0 (-1000000000) = 0
    decide
  · decide

/-- C8 (amended): with ε = 0 and a draw `r ∈ [0,1)`, `select` is
deterministic; provided some candidate scores above the `-1e9` sentinel,
it returns an in-range index of a candidate maximising the score
(`totalReward/pulls` for pulled arms, optimistic 1.0 for unseen or
never-pulled arms).  The claim's S6 scenario holds: after a→0.2 ×3 and
b→0.9, select returns b (index 1); after `update(a, 2.0)` still b; after a
second `update(a, 2.0)` (a's average 0.92) it returns a (index 0). -/
theorem c8_greedy_select (arms : List (String × ArmStats)) (ids : List String)
    (r : ℚ) (ri : Nat) (hne : ids ≠ []) (hr : 0 ≤ r)
    (hex : ∃ id ∈ ids, -1000000000 < mabScore arms id) :
    (0 ≤ mabSelect 0 r ri arms ids ∧
      mabSelect 0 r ri arms ids < (ids.length : Int) ∧
      ∀ id ∈ ids,
        mabScore arms id ≤ mabScore arms (ids.getD (mabSelect 0 r ri arms ids).toNat "")) ∧
    (∀ (arms' : List (String × ArmStats)) (id : String),
        List.lookup id arms' = none → mabScore arms' id = 1) ∧
    (mabSelect 0 r ri c8Arms ["a", "b"] = 1 ∧
      mabSelect 0 r ri (mabUpdate c8Arms "a" 2) ["a", "b"] = 1 ∧
      mabSelect 0 r ri (mabUpdate (mabUpdate c8Arms "a" 2) "a" 2) ["a", "b"] = 0) := by
  have hnr : ¬ r < 0 := not_lt.mpr hr
  have hsel : mabSelect 0 r ri arms ids = selectLoop arms ids 0 0 (-1000000000) := by
    unfold mabSelect
    rw [if_neg hne, if_neg hnr]
  refine ⟨⟨?_, ?_, ?_⟩, ?_, ?_, ?_, ?_⟩
  · rw [hsel]
    rcases selectLoop_spec arms ids 0 0 (-1000000000) with ⟨_, hall⟩ | ⟨k, hk, heq, _, _⟩
    · exfalso
      obtain ⟨id, hid, hgt⟩ := hex
      exact absurd (hall id hid) (not_le.mpr hgt)
    · rw [heq]; omega
  · rw [hsel]
    rcases selectLoop_spec arms ids 0 0 (-1000000000) with ⟨_, hall⟩ | ⟨k, hk, heq, _, _⟩
    · exfalso
      obtain ⟨id, hid, hgt⟩ := hex
      exact absurd (hall id hid) (not_le.mpr hgt)
    · rw [heq]; omega
  · rw [hsel]
    rcases selectLoop_spec arms ids 0 0 (-1000000000) with ⟨_, hall⟩ | ⟨k, hk, heq, _, hall⟩
    · exfalso
      obtain ⟨id, hid, hgt⟩ := hex
      exact absurd (hall id hid) (not_le.mpr hgt)
    · rw [heq]
      intro id hid
      simpa only [Int.toNat_natCast, Nat.zero_add] using hall id hid
  · intro arms' id hnone
    unfold mabScore
    rw [hnone]
  · show mabSelect 0 r ri c8Arms ["a", "b"] = 1
    unfold mabSelect
    rw [if_neg (by simp), if_neg hnr]
    decide
  · show mabSelect 0 r ri (mabUpdate c8Arms "a" 2) ["a", "b"] = 1
    unfold mabSelect
    rw [if_neg (by simp), if_neg hnr]
    decide
  · show mabSelect 0 r ri (mabUpdate (mabUpdate c8Arms "a" 2) "a" 2) ["a", "b"] = 0
    unfold mabSelect
    rw [if_neg (by simp), if_neg hnr]
    decide

/-- Witness for `c8_greedy_select` at r = 0, ri = 0, the scenario arms and
candidates [a, b]. -/
theorem c8_greedy_select_witness :
    ((["a", "b"] : List String) ≠ [] ∧ (0 : ℚ) ≤ 0 ∧
      ∃ id ∈ (["a", "b"] : List String), -1000000000 < mabScore c8Arms id) ∧
    (0 ≤ mabSelect 0 0 0 c8Arms ["a", "b"] ∧
      mabSelect 0 0 0 c8Arms ["a", "b"] < ((["a", "b"] : List String).length : Int) ∧
      ∀ id ∈ (["a", "b"] : List String),
        mabScore c8Arms id ≤
          mabScore c8Arms ((["a", "b"] : List String).getD (mabSelect 0 0 0 c8Arms ["a", "b"]).toNat "")) :=
  ⟨⟨by simp, le_refl 0, ⟨"a", by simp, by decide⟩⟩,
    ((c8_greedy_select c8Arms ["a", "b"] 0 0 (by simp) (le_refl 0)
      ⟨"a", by simp, by decide⟩).1)⟩
/-- Default `operator<<(double)` formatting of the export stream, modelled
exactly on integral values (the priorities the engine's rules use):
`1.0` prints as `"1"`. -/
def fmtNum (q : ℚ) : String :=
  if q.den = 1 then toString q.num else toString q

/-- The `if (i > 0) ss << ","` joining pattern of the export loops. -/
def joinComma : List String → String
  | [] => ""
  | [s] => s
  | s :: rest => s ++ "," ++ joinComma rest

/-- One condition object of `RuleEngine::exportRulesJson`. -/
def exportCondJson (c : Condition) : String :=
  "\x7b\"key\":\"" ++ c.key ++ "\",\"op\":\"" ++ c.op
    ++ "\",\"value\":\"" ++ c.value ++ "\"\x7d"

/-- One rule object of `RuleEngine::exportRulesJson` (rule_engine.cpp
lines 356-370): id, name, enabled, priority, conditions, action — and no
`cooldownMs` field. -/
def exportRuleJson (r : Rule) : String :=
  "\x7b\"id\":\"" ++ r.id ++ "\",\"name\":\"" ++ r.name
    ++ "\",\"enabled\":" ++ (if r.enabled then "true" else "false")
    ++ ",\"priority\":" ++ fmtNum r.priority
    ++ ",\"conditions\":[" ++ joinComma (r.conditions.map exportCondJson)
    ++ "],\"action\":\x7b\"id\":\"" ++ r.action.id
    ++ "\",\"type\":\"" ++ r.action.type
    ++ "\",\"payload\":\"" ++ r.action.payload ++ "\"\x7d\x7d"

/-- `RuleEngine::exportRulesJson`. -/
def exportRulesJson (rules : List Rule) : String :=
  "[" ++ joinComma (rules.map exportRuleJson) ++ "]"

/-- The S1 rule with a 10-second cooldown. -/
def c9Rule : Rule :=
  { id := "r1", name := "n1",
    conditions := [⟨"motionState", "eq", "walking"⟩],
    action := ⟨"a1", "suggestion", "p"⟩,
    priority := 1, cooldownMs := 10000, enabled := true }

/-- C9: exporting a rule whose `cooldownMs` is 10000 produces a JSON
object with no `cooldownMs` field at all (the emitted string is exactly
the one below), so export followed by re-load resets the cooldown to the
loader's default 0 instead of reproducing the rule. -/
theorem c9_export_omits_cooldown :
    c9Rule.cooldownMs = 10000 ∧
    exportRulesJson [c9Rule] =
      "[\x7b\"id\":\"r1\",\"name\":\"n1\",\"enabled\":true,\"priority\":1,\"conditions\":[\x7b\"key\":\"motionState\",\"op\":\"eq\",\"value\":\"walking\"\x7d],\"action\":\x7b\"id\":\"a1\",\"type\":\"suggestion\",\"payload\":\"p\"\x7d\x7d]" := by
  constructor
  · rfl
  · rfl
/-- `RateLimits` from context_engine.h, with its in-class defaults. -/
structure RateLimits where
  categoryCooldownCount : ℤ := 3
  categoryCooldownWindowMs : ℤ := 600000
  globalMaxPerHour : ℤ := 10
deriving DecidableEq, Repr

/-- `TreeNode` from context_engine.h.  `TreeNode{}` value-initialises the
members (`defaultChild` to 0); compileTree always overwrites `splitKey`,
`defaultChild` and either `ruleIndices` or `branches` before the node is
read. -/
structure TreeNode where
  splitKey : String := ""
  branches : List (String × Int) := []
  defaultChild : Int := 0
  ruleIndices : List Nat := []
deriving DecidableEq, Repr

/-- The two firing deques guarded by the engine mutex:
`categoryFirings_` and `globalFirings_`. -/
structure FireState where
  categoryFirings : List (String × List ℤ)
  globalFirings : List ℤ
deriving DecidableEq, Repr

/-- Engine state owned by `RuleEngine` (rules, compiled tree, lastFired
map, rate-limit config, firing deques, event buffer). -/
structure EngineState where
  rules : List Rule
  tree : List TreeNode
  lastFired : List (String × ℤ)
  rateLimits : RateLimits
  fire : FireState
  eventBuffer : EventBuffer
deriving DecidableEq, Repr

/-- Replace the value stored under `k` (the deque trim writes back through
the reference obtained from `find`). -/
def assocReplace (k : String) (v : List ℤ) (m : List (String × List ℤ)) :
    List (String × List ℤ) :=
  m.map (fun p => if p.1 = k then (p.1, v) else p)

/-- `unordered_map::operator[]` + `push_back` in `recordFiring`:
append to an existing deque or create a fresh one. -/
def assocAppendTs (k : String) (t : ℤ) (m : List (String × List ℤ)) :
    List (String × List ℤ) :=
  match List.lookup k m with
  | some _ => m.map (fun p => if p.1 = k then (p.1, p.2 ++ [t]) else p)
  | none => m ++ [(k, [t])]

/-- `RuleEngine::isRateLimited` (rule_engine.cpp lines 179-204): trim the
category deque and early-return on the category gate, then trim the global
deque and test the hourly gate.  Returns the verdict and the trimmed
deques. -/
def isRateLimited (limits : RateLimits) (now : ℤ) (action : Action)
    (fs : FireState) : Bool × FireState :=
  let catStep : Bool × FireState :=
    match List.lookup action.type fs.categoryFirings with
    | some ts =>
      let ts' := ts.dropWhile (fun t => t < now - limits.categoryCooldownWindowMs)
      (decide (limits.categoryCooldownCount ≤ (ts'.length : ℤ)),
        { fs with categoryFirings := assocReplace action.type ts' fs.categoryFirings })
    | none => (false, fs)
  if catStep.1 then (true, catStep.2)
  else
    let g := catStep.2.globalFirings.dropWhile (fun t => t < now - 3600000)
    let fs2 := { catStep.2 with globalFirings := g }
    if limits.globalMaxPerHour ≤ (g.length : ℤ) then (true, fs2)
    else (false, fs2)

/-- `RuleEngine::recordFiring`. -/
def recordFiring (action : Action) (now : ℤ) (fs : FireState) : FireState :=
  { categoryFirings := assocAppendTs action.type now fs.categoryFirings,
    globalFirings := fs.globalFirings ++ [now] }

/-- The per-rule body of the leaf loop in `RuleEngine::evaluateNode`
(lines 219-243), also used verbatim by the linear fallback in
`RuleEngine::evaluate` (lines 286-301): enabled check, per-rule cooldown,
rate limits, soft-matched confidence with early exit, 0.1 emission gate. -/
def evalRuleBody (lastFired : List (String × ℤ)) (limits : RateLimits)
    (buf : EventBuffer) (now : ℤ) (ctx : ContextMap)
    (acc : List MatchResult × FireState) (rule : Rule) :
    List MatchResult × FireState :=
  if !rule.enabled then acc
  else
    let cooldownBlocked :=
      match List.lookup rule.id lastFired with
      | some last => decide (0 < rule.cooldownMs) && decide (now - last < rule.cooldownMs)
      | none => false
    if cooldownBlocked then acc
    else
      let step := isRateLimited limits now rule.action acc.2
      if step.1 then (acc.1, step.2)
      else
        let confidence := confLoop (fun c => matchCondition buf now c ctx) rule.conditions 1
        if 1/10 < confidence then (acc.1 ++ [⟨rule.id, confidence, rule.action⟩], step.2)
        else (acc.1, step.2)

/-- One leaf candidate: `rules_[rIdx]` (out-of-range indexing is UB in C++
and never produced by `compileTree`; modelled as a skip). -/
def evalRuleAt (rules : List Rule) (lastFired : List (String × ℤ))
    (limits : RateLimits) (buf : EventBuffer) (now : ℤ) (ctx : ContextMap)
    (acc : List MatchResult × FireState) (rIdx : Nat) :
    List MatchResult × FireState :=
  match rules.get? rIdx with
  | none => acc
  | some rule => evalRuleBody lastFired limits buf now ctx acc rule

/-- `RuleEngine::evaluateNode` (lines 211-262).  The C++ recursion is
bounded by the fuel parameter; compiled trees only ever reference strictly
larger child indices, so `tree.length + 1` fuel is sufficient for them. -/
def evaluateNode (rules : List Rule) (lastFired : List (String × ℤ))
    (limits : RateLimits) (buf : EventBuffer) (tree : List TreeNode)
    (now : ℤ) (ctx : ContextMap) :
    Nat → Int → (List MatchResult × FireState) → (List MatchResult × FireState)
  | 0, _, acc => acc
  | fuel + 1, nodeIdx, acc =>
    if nodeIdx < 0 ∨ (tree.length : Int) ≤ nodeIdx then acc
    else
      match tree.get? nodeIdx.toNat with
      | none => acc
      | some node =>
        if node.splitKey = "" then
          node.ruleIndices.foldl (evalRuleAt rules lastFired limits buf now ctx) acc
        else
          match List.lookup node.splitKey ctx with
          | some v =>
            match List.lookup v node.branches with
            | some childIdx =>
              evaluateNode rules lastFired limits buf tree now ctx fuel childIdx acc
            | none =>
              if 0 ≤ node.defaultChild then
                evaluateNode rules lastFired limits buf tree now ctx fuel node.defaultChild acc
              else acc
          | none =>
            if 0 ≤ node.defaultChild then
              evaluateNode rules lastFired limits buf tree now ctx fuel node.defaultChild acc
            else acc

/-- The priority lookup table built at the top of `RuleEngine::evaluate`
(later duplicates overwrite earlier ones, as with `operator[]`). -/
def assocInsertQ (k : String) (v : ℚ) (m : List (String × ℚ)) : List (String × ℚ) :=
  match List.lookup k m with
  | some _ => m.map (fun p => if p.1 = k then (p.1, v) else p)
  | none => m ++ [(k, v)]

def priorityMapOf (rules : List Rule) : List (String × ℚ) :=
  rules.foldl (fun m r => assocInsertQ r.id r.priority m) []

/-- `confidence × priority` with the default 1.0 for an unknown rule id
(the `priorityMap.count` fallback). -/
def scoreOf (pm : List (String × ℚ)) (r : MatchResult) : ℚ :=
  r.confidence * ((List.lookup r.ruleId pm).getD 1)

/-- Descending insertion by `scoreOf`.  Models `std::sort` with the strict
comparator `a.conf·pa > b.conf·pb`: the order among tied scores is
unspecified in the source; this model keeps ties in input order. -/
def insertByScore (pm : List (String × ℚ)) (r : MatchResult) :
    List MatchResult → List MatchResult
  | [] => [r]
  | x :: xs =>
    if scoreOf pm x < scoreOf pm r then r :: x :: xs
    else x :: insertByScore pm r xs

def sortByScore (pm : List (String × ℚ)) (results : List MatchResult) :
    List MatchResult :=
  results.foldr (fun r acc => insertByScore pm r acc) []

/-- The dedup pass of `RuleEngine::evaluate` (lines 317-333): first
occurrence keeps its position, a later duplicate replaces it only when
strictly more confident. -/
def dedupStep (acc : List MatchResult) (r : MatchResult) : List MatchResult :=
  match acc.findIdx? (fun x => x.ruleId = r.ruleId) with
  | some j => if (acc.getD j r).confidence < r.confidence then acc.set j r else acc
  | none => acc ++ [r]

def dedup (results : List MatchResult) : List MatchResult :=
  results.foldl dedupStep []

/-- `results.resize(maxResults)` guarded by `size > maxResults`. -/
def resizeTo (maxResults : Int) (results : List MatchResult) : List MatchResult :=
  if maxResults < (results.length : Int) then results.take maxResults.toNat else results

/-- `RuleEngine::evaluate` (lines 264-349): tree descent (or the linear
fallback when no tree is compiled), dedup (tree path only, as in the
source), sort, truncation, and top-result firing bookkeeping.  The two
`nowMs()` readings (leaf scan and firing record) are modelled by the same
injected `now`. -/
def evaluate (s : EngineState) (now : ℤ) (ctx : ContextMap) (maxResults : Int) :
    List MatchResult × EngineState :=
  let pm := priorityMapOf s.rules
  let scanned :=
    if s.tree = [] then
      s.rules.foldl
        (evalRuleBody s.lastFired s.rateLimits s.eventBuffer now ctx)
        ([], s.fire)
    else
      let out := evaluateNode s.rules s.lastFired s.rateLimits s.eventBuffer s.tree
        now ctx (s.tree.length + 1) 0 ([], s.fire)
      (dedup out.1, out.2)
  let results := resizeTo maxResults (sortByScore pm scanned.1)
  match results with
  | [] => (results, { s with fire := scanned.2 })
  | top :: _ =>
    (results,
      { s with
        lastFired := (match List.lookup top.ruleId s.lastFired with
          | some _ => s.lastFired.map (fun p => if p.1 = top.ruleId then (p.1, now) else p)
          | none => s.lastFired ++ [(top.ruleId, now)]),
        fire := recordFiring top.action now scanned.2 })

/-- `featureCost` from decision_tree.cpp. -/
def featureCost (key : String) : ℤ :=
  if key = "timeOfDay" ∨ key = "dayOfWeek" ∨ key = "isWeekend" ∨
      key = "hour" ∨ key = "minute" then 0
  else if key = "batteryLevel" ∨ key = "isCharging" ∨ key = "networkType" then 1
  else if key = "motionState" ∨ key = "stepCount" then 2
  else if key = "geofence" ∨ key = "location" ∨ key = "latitude" ∨
      key = "longitude" then 3
  else 2

/-- `keyCount[cond.key]++` on an association list kept in first-insertion
order (the iteration order of the source's `unordered_map` is
implementation-defined; first-insertion order is the model's choice, and
the theorems below only use inputs whose outcome is order-independent). -/
def bumpCount (k : String) : List (String × Nat) → List (String × Nat)
  | [] => [(k, 1)]
  | (k', n) :: rest =>
    if k' = k then (k', n + 1) :: rest else (k', n) :: bumpCount k rest

/-- The counting loop of `pickSplitKey`: occurrences of each non-used key
over all conditions of the candidate rules. -/
def keyCounts (rules : List Rule) (indices : List Nat) (usedKeys : List String) :
    List (String × Nat) :=
  indices.foldl
    (fun m idx =>
      match rules.get? idx with
      | none => m
      | some r =>
        r.conditions.foldl
          (fun m c => if usedKeys.contains c.key then m else bumpCount c.key m) m)
    []

/-- `pickSplitKey` from decision_tree.cpp: maximise
`coverage / (1 + cost)`, strict improvement, `bestScore` initialised to
−1. -/
def pickSplitKey (rules : List Rule) (indices : List Nat)
    (usedKeys : List String) : String :=
  let counts := keyCounts rules indices usedKeys
  if counts = [] then ""
  else
    (counts.foldl
      (fun best p =>
        let score := (p.2 : ℚ) / (1 + (featureCost p.1 : ℚ))
        if best.2 < score then (p.1, score) else best)
      (("", (-1 : ℚ)))).1

/-- `groups[cond.value].push_back(idx)` on an insertion-ordered
association list. -/
def addGroup (v : String) (idx : Nat) :
    List (String × List Nat) → List (String × List Nat)
  | [] => [(v, [idx])]
  | (v', l) :: rest =>
    if v' = v then (v', l ++ [idx]) :: rest else (v', l) :: addGroup v idx rest

/-- The partition loop of `compileTree` (lines 117-129): a rule joins the
group of its first `eq` condition on the split key, otherwise the
`noCondition` set. -/
def partitionRules (rules : List Rule) (indices : List Nat) (splitKey : String) :
    List (String × List Nat) × List Nat :=
  indices.foldl
    (fun acc idx =>
      match rules.get? idx with
      | none => (acc.1, acc.2 ++ [idx])
      | some r =>
        match r.conditions.find? (fun c => c.key = splitKey ∧ c.op = "eq") with
        | some c => (addGroup c.value idx acc.1, acc.2)
        | none => (acc.1, acc.2 ++ [idx]))
    ([], [])

/-- A `BuildTask` from the compile stack. -/
structure BuildTask where
  indices : List Nat
  usedKeys : List String
  parentIdx : Int
  branchValue : String

/-- The `while (!stack.empty())` loop of `RuleEngine::compileTree`
(decision_tree.cpp lines 89-149), transcribed with the stack as a list
whose head is the top.  Note the faithful reproduction of the source's
child-index computation: every branch and the default branch of one parent
record `tree_.size()` **at push time**, although the nodes themselves are
only allocated when their tasks are popped (LIFO). -/
def compileGo (rules : List Rule) : Nat → List BuildTask → List TreeNode → List TreeNode
  | 0, _, tree => tree
  | _ + 1, [], tree => tree
  | fuel + 1, task :: stack, tree =>
    let nodeIdx : Nat := if task.parentIdx = -1 then 0 else tree.length
    let tree := if task.parentIdx = -1 then tree else tree ++ [{}]
    let splitKey := pickSplitKey rules task.indices task.usedKeys
    if splitKey = "" ∨ task.indices.length ≤ 2 ∨ 5 ≤ task.usedKeys.length then
      let tree := tree.set nodeIdx
        { splitKey := "", branches := [], defaultChild := -1,
          ruleIndices := task.indices }
      compileGo rules fuel stack tree
    else
      let part := partitionRules rules task.indices splitKey
      let childUsedKeys :=
        if task.usedKeys.contains splitKey then task.usedKeys
        else task.usedKeys ++ [splitKey]
      let tree := tree.set nodeIdx
        { splitKey := splitKey,
          branches := part.1.map (fun g => (g.1, (tree.length : Int))),
          defaultChild := if part.2 = [] then -1 else (tree.length : Int),
          ruleIndices := [] }
      let groupTasks := part.1.map (fun g =>
        BuildTask.mk (g.2 ++ part.2) childUsedKeys (nodeIdx : Int) g.1)
      let defaultTasks :=
        if part.2 = [] then []
        else [BuildTask.mk part.2 childUsedKeys (nodeIdx : Int) "__default__"]
      compileGo rules fuel ((groupTasks ++ defaultTasks).reverse ++ stack) tree

/-- `RuleEngine::compileTree` (lines 62-150): seed with the enabled rule
indices and a reserved root node.  The fuel is a generous upper bound on
loop iterations; the concrete computations below finish long before it
runs out. -/
def compileTree (rules : List Rule) : List TreeNode :=
  if rules = [] then []
  else
    let allIndices := (List.range rules.length).filter
      (fun i => match rules.get? i with | some r => r.enabled | none => false)
    compileGo rules ((rules.length + 2) ^ 6) [⟨allIndices, [], -1, ""⟩] [{}]

/-- `RuleEngine::loadRules`: replace the rule table and recompile. -/
def loadRules (s : EngineState) (rules : List Rule) : EngineState :=
  { s with rules := rules, tree := compileTree rules }

/-- Freshly constructed engine (`RuleEngine::RuleEngine`): empty rules and
deques, default limits, event buffer of capacity 100. -/
def engineInit : EngineState :=
  { rules := [], tree := [], lastFired := [], rateLimits := {},
    fire := ⟨[], []⟩, eventBuffer := ⟨[], 100⟩ }

/-- Rule indices contained in leaves reachable from `nodeIdx` by following
stored branch and `defaultChild` indices. -/
def reachableRules (tree : List TreeNode) : Nat → Int → List Nat
  | 0, _ => []
  | fuel + 1, nodeIdx =>
    if nodeIdx < 0 ∨ (tree.length : Int) ≤ nodeIdx then []
    else
      match tree.get? nodeIdx.toNat with
      | none => []
      | some node =>
        if node.splitKey = "" then node.ruleIndices
        else
          (node.branches.foldl
            (fun acc b => acc ++ reachableRules tree fuel b.2) []) ++
          (if 0 ≤ node.defaultChild then reachableRules tree fuel node.defaultChild
           else [])
/-- S1 rule R1: motionState eq "walking", priority 1, cooldown 10 s. -/
def c4Rule : Rule :=
  { id := "R1", name := "R1", conditions := [⟨"motionState", "eq", "walking"⟩],
    action := ⟨"a1", "suggestion", "p"⟩, priority := 1, cooldownMs := 10000, enabled := true }

def c4Ctx : ContextMap := [("motionState", "walking")]

def c4Res : MatchResult := ⟨"R1", 1, ⟨"a1", "suggestion", "p"⟩⟩

/-- Engine state after `loadRules` of [R1]: the compiled tree is the single
leaf holding rule index 0. -/
def c4S0 : EngineState :=
  { rules := [c4Rule], tree := [⟨"", [], -1, [0]⟩],
    lastFired := [], rateLimits := {},
    fire := ⟨[], []⟩, eventBuffer := ⟨[], 100⟩ }

/-- Engine state after the first firing at time `t`. -/
def c4S1 (t : ℤ) : EngineState :=
  { rules := [c4Rule], tree := [⟨"", [], -1, [0]⟩],
    lastFired := [("R1", t)], rateLimits := {},
    fire := ⟨[("suggestion", [t])], [t]⟩, eventBuffer := ⟨[], 100⟩ }

lemma c4_load : loadRules engineInit [c4Rule] = c4S0 := by decide

/-- `evaluateNode` with fuel 2 on a one-leaf tree is the leaf loop. -/
lemma evaluateNode_leaf_two (rules : List Rule) (lf : List (String × ℤ))
    (lim : RateLimits) (buf : EventBuffer) (now : ℤ) (ctx : ContextMap)
    (idxs : List Nat) (acc : List MatchResult × FireState) :
    evaluateNode rules lf lim buf [⟨"", [], -1, idxs⟩] now ctx 2 0 acc =
      idxs.foldl (evalRuleAt rules lf lim buf now ctx) acc := by
  rfl

/-- First S1 evaluation: no cooldown entry, empty deques, confidence 1. -/
lemma c4_body1 (t : ℤ) :
    evalRuleBody [] {} ⟨[], 100⟩ t c4Ctx ([], ⟨[], []⟩) c4Rule
      = ([c4Res], ⟨[], []⟩) := by
  simp [evalRuleBody, c4Rule, c4Ctx, c4Res, isRateLimited, confLoop, matchCondition, softMatch]
  norm_num

/-- Immediate second S1 evaluation: `now − lastFired = 0 < 10000` blocks. -/
lemma c4_body2 (t : ℤ) :
    evalRuleBody [("R1", t)] {} ⟨[], 100⟩ t c4Ctx ([], ⟨[("suggestion", [t])], [t]⟩) c4Rule
      = ([], ⟨[("suggestion", [t])], [t]⟩) := by
  simp [evalRuleBody, c4Rule, c4Ctx]

/-- Third S1 evaluation at `t + 10001`: the cooldown has elapsed and the
rate-limit windows hold a single timestamp each. -/
lemma c4_body3 (t : ℤ) :
    evalRuleBody [("R1", t)] {} ⟨[], 100⟩ (t + 10001) c4Ctx ([], ⟨[("suggestion", [t])], [t]⟩) c4Rule
      = ([c4Res], ⟨[("suggestion", [t])], [t]⟩) := by
  have h1 : ¬ (t + 10001 - t < (10000 : ℤ)) := by omega
  have h2 : ¬ (t < t + 10001 - (600000 : ℤ)) := by omega
  have h3 : ¬ (t < t + 10001 - (3600000 : ℤ)) := by omega
  simp [evalRuleBody, c4Rule, c4Ctx, c4Res, isRateLimited, confLoop, matchCondition, softMatch,
    assocReplace, h1, h2, h3]
  norm_num

lemma c4_step1 (t : ℤ) :
    evaluate c4S0 t c4Ctx 5 = ([c4Res], c4S1 t) := by
  simp [evaluate, c4S0, c4S1, evaluateNode_leaf_two, evalRuleAt, c4_body1,
    dedup, dedupStep, sortByScore, insertByScore, resizeTo, priorityMapOf,
    assocInsertQ, recordFiring, assocAppendTs]
  exact ⟨rfl, rfl⟩

lemma c4_step2 (t : ℤ) :
    evaluate (c4S1 t) t c4Ctx 5 = ([], c4S1 t) := by
  simp [evaluate, c4S1, evaluateNode_leaf_two, evalRuleAt, c4_body2,
    dedup, dedupStep, sortByScore, insertByScore, resizeTo, priorityMapOf,
    assocInsertQ, recordFiring, assocAppendTs]

lemma c4_step3 (t : ℤ) :
    (evaluate (c4S1 t) (t + 10001) c4Ctx 5).1 = [c4Res] := by
  simp [evaluate, c4S1, evaluateNode_leaf_two, evalRuleAt, c4_body3,
    dedup, dedupStep, sortByScore, insertByScore, resizeTo, priorityMapOf,
    assocInsertQ, recordFiring, assocAppendTs]

/-- C4: with the single enabled rule R1 (motionState eq "walking",
priority 1, cooldownMs 10000) and default rate limits, evaluating
ctx = {motionState: "walking"} at any time t returns [(R1, 1.0)]; an
immediately following evaluate at the same clock reading returns [] (the
per-rule cooldown `now − lastFired < cooldownMs` blocks R1); an evaluate
at t + 10001 returns [(R1, 1.0)] again. -/
theorem c4_eq_cooldown (t : ℤ) :
    (evaluate (loadRules engineInit [c4Rule]) t c4Ctx 5).1 = [c4Res] ∧
    (evaluate (evaluate (loadRules engineInit [c4Rule]) t c4Ctx 5).2 t c4Ctx 5).1 = [] ∧
    (evaluate (evaluate (evaluate (loadRules engineInit [c4Rule]) t c4Ctx 5).2 t c4Ctx 5).2
      (t + 10001) c4Ctx 5).1 = [c4Res] := by
  rw [c4_load, c4_step1]
  refine ⟨rfl, ?_, ?_⟩
  · rw [c4_step2]
  · rw [c4_step2]
    exact c4_step3 t

/-- The three enabled rules that exhibit the compile-index bug: two rules
split on hour = "9", one numeric battery rule that lands in the default
group. -/
def c2Rules : List Rule :=
  [{ id := "A", name := "A", conditions := [⟨"hour", "eq", "9"⟩],
     action := ⟨"aA", "suggestion", ""⟩, priority := 1, cooldownMs := 0, enabled := true },
   { id := "B", name := "B", conditions := [⟨"hour", "eq", "9"⟩],
     action := ⟨"aB", "suggestion", ""⟩, priority := 1, cooldownMs := 0, enabled := true },
   { id := "C", name := "C", conditions := [⟨"batteryLevel", "gt", "50"⟩],
     action := ⟨"aC", "suggestion", ""⟩, priority := 1, cooldownMs := 0, enabled := true }]

/-- C2: `compileTree` records `tree_.size()` as the child index when a
task is *pushed*, but nodes are only allocated when tasks are *popped*
(LIFO), so both the "9" branch and the default branch of the root point
at node 1 — the node actually built for the default subtree.  The subtree
holding the enabled rules 0 and 1 (nodes 2 and 3) is unreachable from the
root, violating the reconstruction invariant; evaluating {hour: "9"}
consequently returns only rule C at confidence 0.5 instead of the exact
matches A/B at 1.0. -/
theorem c2_compile_tree_bug :
    (∀ r ∈ c2Rules, r.enabled = true) ∧
    compileTree c2Rules =
      [⟨"hour", [("9", 1)], 1, []⟩,
       ⟨"", [], -1, [2]⟩,
       ⟨"batteryLevel", [], 3, []⟩,
       ⟨"", [], -1, [0, 1, 2]⟩] ∧
    (0 ∉ reachableRules (compileTree c2Rules) ((compileTree c2Rules).length + 1) 0) ∧
    (1 ∉ reachableRules (compileTree c2Rules) ((compileTree c2Rules).length + 1) 0) ∧
    (evaluate (loadRules engineInit c2Rules) 0 [("hour", "9")] 5).1 =
      [⟨"C", 1/2, ⟨"aC", "suggestion", ""⟩⟩] :=
  ⟨by decide, by decide, by decide, by decide, by decide⟩
/-- One deque is obtained from the other by dropping a prefix (lazy
trimming only, no appends). -/
def FireSuffix (fs' fs : FireState) : Prop :=
  List.IsSuffix fs'.globalFirings fs.globalFirings ∧
  ∀ cat, List.IsSuffix ((List.lookup cat fs'.categoryFirings).getD [])
                       ((List.lookup cat fs.categoryFirings).getD [])

lemma FireSuffix.rfl (fs : FireState) : FireSuffix fs fs :=
  ⟨List.suffix_refl _, fun _ => List.suffix_refl _⟩

lemma FireSuffix.trans {fs3 fs2 fs1 : FireState}
    (h32 : FireSuffix fs3 fs2) (h21 : FireSuffix fs2 fs1) : FireSuffix fs3 fs1 :=
  ⟨h32.1.trans h21.1, fun cat => (h32.2 cat).trans (h21.2 cat)⟩

lemma dropWhile_isSuffix (p : ℤ → Bool) : ∀ l : List ℤ, List.IsSuffix (l.dropWhile p) l
  | [] => List.suffix_refl _
  | a :: l => by
    rw [List.dropWhile_cons]
    split
    · exact (dropWhile_isSuffix p l).trans (List.suffix_cons a l)
    · exact List.suffix_refl _

lemma lookup_pair_cons {β : Type} (cat k : String) (w : β) (l : List (String × β)) :
    List.lookup cat ((k, w) :: l) = if cat = k then some w else List.lookup cat l := by
  by_cases h : cat = k
  · subst h
    simp [List.lookup]
  · have hb : (cat == k) = false := by
      simpa using h
    simp [List.lookup, hb, h]

lemma assocReplace_cons (k k' : String) (v v' : List ℤ) (m : List (String × List ℤ)) :
    assocReplace k v ((k', v') :: m) =
      (k', if k' = k then v else v') :: assocReplace k v m := by
  unfold assocReplace
  simp only [List.map_cons]
  split_ifs <;> rfl

lemma lookup_assocReplace (k : String) (v : List ℤ) (cat : String) :
    ∀ m : List (String × List ℤ),
      List.lookup cat (assocReplace k v m) =
        if cat = k then (List.lookup k m).map (fun _ => v) else List.lookup cat m
  | [] => by
    show List.lookup cat ([] : List (String × List ℤ)) = _
    simp only [List.lookup_nil, Option.map_none]
    split <;> rfl
  | (k', v') :: m => by
    have ih := lookup_assocReplace k v cat m
    rw [assocReplace_cons, lookup_pair_cons, lookup_pair_cons]
    by_cases hck : cat = k'
    · subst hck
      by_cases hk : cat = k
      · subst hk
        simp
      · simp [hk]
    · by_cases hk : cat = k
      · subst hk
        simp [hck, ih]
      · simp [hck, hk, ih, lookup_pair_cons]

lemma isRateLimited_suffix (lim : RateLimits) (now : ℤ) (action : Action)
    (fs : FireState) : FireSuffix (isRateLimited lim now action fs).2 fs := by
  unfold isRateLimited
  cases h : List.lookup action.type fs.categoryFirings with
  | none =>
    simp only [h]
    split_ifs <;>
      first
        | exact ⟨List.suffix_refl _, fun _ => List.suffix_refl _⟩
        | exact ⟨dropWhile_isSuffix _ _, fun _ => List.suffix_refl _⟩
  | some ts =>
    simp only [h]
    have hcat : ∀ cat,
        List.IsSuffix
          ((List.lookup cat (assocReplace action.type
              (ts.dropWhile (fun t => t < now - lim.categoryCooldownWindowMs))
              fs.categoryFirings)).getD [])
          ((List.lookup cat fs.categoryFirings).getD []) := by
      intro cat
      rw [lookup_assocReplace]
      split_ifs with hc
      · subst hc
        rw [h]
        simp only [Option.map_some, Option.getD_some]
        exact dropWhile_isSuffix _ ts
      · exact List.suffix_refl _
    split_ifs <;>
      first
        | exact ⟨List.suffix_refl _, hcat⟩
        | exact ⟨dropWhile_isSuffix _ _, hcat⟩

lemma evalRuleBody_suffix (lf : List (String × ℤ)) (lim : RateLimits)
    (buf : EventBuffer) (now : ℤ) (ctx : ContextMap)
    (acc : List MatchResult × FireState) (rule : Rule) :
    FireSuffix (evalRuleBody lf lim buf now ctx acc rule).2 acc.2 := by
  unfold evalRuleBody
  dsimp only
  split_ifs <;>
    first
      | exact FireSuffix.rfl _
      | exact isRateLimited_suffix lim now rule.action acc.2

lemma evalRuleAt_suffix (rules : List Rule) (lf : List (String × ℤ))
    (lim : RateLimits) (buf : EventBuffer) (now : ℤ) (ctx : ContextMap)
    (acc : List MatchResult × FireState) (rIdx : Nat) :
    FireSuffix (evalRuleAt rules lf lim buf now ctx acc rIdx).2 acc.2 := by
  unfold evalRuleAt
  cases rules.get? rIdx with
  | none => exact FireSuffix.rfl _
  | some rule => exact evalRuleBody_suffix lf lim buf now ctx acc rule

lemma foldl_evalRuleAt_suffix (rules : List Rule) (lf : List (String × ℤ))
    (lim : RateLimits) (buf : EventBuffer) (now : ℤ) (ctx : ContextMap) :
    ∀ (idxs : List Nat) (acc : List MatchResult × FireState),
      FireSuffix ((idxs.foldl (evalRuleAt rules lf lim buf now ctx) acc).2) acc.2
  | [], acc => FireSuffix.rfl _
  | i :: idxs, acc =>
    (foldl_evalRuleAt_suffix rules lf lim buf now ctx idxs
        (evalRuleAt rules lf lim buf now ctx acc i)).trans
      (evalRuleAt_suffix rules lf lim buf now ctx acc i)

lemma foldl_evalRuleBody_suffix (lf : List (String × ℤ)) (lim : RateLimits)
    (buf : EventBuffer) (now : ℤ) (ctx : ContextMap) :
    ∀ (rs : List Rule) (acc : List MatchResult × FireState),
      FireSuffix ((rs.foldl (evalRuleBody lf lim buf now ctx) acc).2) acc.2
  | [], acc => FireSuffix.rfl _
  | r :: rs, acc =>
    (foldl_evalRuleBody_suffix lf lim buf now ctx rs
        (evalRuleBody lf lim buf now ctx acc r)).trans
      (evalRuleBody_suffix lf lim buf now ctx acc r)

lemma evaluateNode_suffix (rules : List Rule) (lf : List (String × ℤ))
    (lim : RateLimits) (buf : EventBuffer) (tree : List TreeNode)
    (now : ℤ) (ctx : ContextMap) :
    ∀ (fuel : Nat) (nodeIdx : Int) (acc : List MatchResult × FireState),
      FireSuffix ((evaluateNode rules lf lim buf tree now ctx fuel nodeIdx acc).2) acc.2
  | 0, _, acc => FireSuffix.rfl _
  | fuel + 1, nodeIdx, acc => by
    unfold evaluateNode
    split_ifs with hb
    · exact FireSuffix.rfl _
    · cases tree.get? nodeIdx.toNat with
      | none => exact FireSuffix.rfl _
      | some node =>
        by_cases hleaf : node.splitKey = ""
        · simp only [if_pos hleaf]
          exact foldl_evalRuleAt_suffix rules lf lim buf now ctx node.ruleIndices acc
        · simp only [if_neg hleaf]
          cases List.lookup node.splitKey ctx with
          | some v =>
            dsimp only
            cases List.lookup v node.branches with
            | some childIdx =>
              exact evaluateNode_suffix rules lf lim buf tree now ctx fuel childIdx acc
            | none =>
              dsimp only
              split_ifs
              · exact evaluateNode_suffix rules lf lim buf tree now ctx fuel node.defaultChild acc
              · exact FireSuffix.rfl _
          | none =>
            dsimp only
            split_ifs
            · exact evaluateNode_suffix rules lf lim buf tree now ctx fuel node.defaultChild acc
            · exact FireSuffix.rfl _

lemma resizeTo_zero (l : List MatchResult) : resizeTo 0 l = [] := by
  unfold resizeTo
  split_ifs with h
  · simp
  · have : l.length = 0 := by omega
    simpa [List.length_eq_zero] using this

/-- C10: `evaluate` with `maxResults = 0` returns the empty list and
records no firing: `lastFired` is unchanged and both the per-category and
the global firing deques gain no entry — each is a suffix of its previous
value (lazy front-trimming of expired entries may still occur). -/
theorem c10_maxResults_zero_frame (s : EngineState) (now : ℤ) (ctx : ContextMap) :
    (evaluate s now ctx 0).1 = [] ∧
    (evaluate s now ctx 0).2.lastFired = s.lastFired ∧
    List.IsSuffix (evaluate s now ctx 0).2.fire.globalFirings s.fire.globalFirings ∧
    ∀ cat, List.IsSuffix
      ((List.lookup cat (evaluate s now ctx 0).2.fire.categoryFirings).getD [])
      ((List.lookup cat s.fire.categoryFirings).getD []) := by
  have hsuffix : FireSuffix
      (if h : s.tree = [] then
        (s.rules.foldl (evalRuleBody s.lastFired s.rateLimits s.eventBuffer now ctx)
          ([], s.fire)).2
       else
        (evaluateNode s.rules s.lastFired s.rateLimits s.eventBuffer s.tree now ctx
          (s.tree.length + 1) 0 ([], s.fire)).2) s.fire := by
    split_ifs
    · exact foldl_evalRuleBody_suffix _ _ _ _ _ s.rules ([], s.fire)
    · exact evaluateNode_suffix _ _ _ _ _ _ _ _ 0 ([], s.fire)
  unfold evaluate
  simp only [resizeTo_zero]
  split_ifs with ht
  · simp only [ht, if_pos rfl] at hsuffix
    exact ⟨trivial, trivial, hsuffix.1, hsuffix.2⟩
  · simp only [dif_neg ht] at hsuffix
    exact ⟨trivial, trivial, hsuffix.1, hsuffix.2⟩
end ContextEngine
